import Mathlib

/-!
Verification of the zfolder archive container (`src/zfolder.h`).

The C code is shallowly embedded over `List Nat` byte buffers.  A byte is a
`Nat` (meaningful values are `< 256`); a C string is the list of its bytes up
to, and not including, the terminating null.  The 32-bit fields (`flen`,
`dlen`, `nfiles`, the `offset` accumulator of `zf_get_file`) are `Nat` with an
explicit `% 2 ^ 32` wherever the C `uint32_t` arithmetic can wrap.  Multi-byte
integers are serialized in the host byte order, fixed here as little-endian.
`memcpy` reads from a buffer position are embedded with `List.getD _ _ 0`:
a read past the end of the buffer (undefined behavior in C) is modeled as
reading the byte 0, and the cursor position is tracked so that out-of-bounds
accesses are visible as a final cursor beyond the buffer length.
Process-terminating `crash` calls are embedded as `Except.error` / `none`.
-/

/-- `Z_MAX_FILES`: maximum number of files (default configuration). -/
def Z_MAX_FILES : Nat := 2048

/-- `Z_MAX_PATH_LEN`: maximum path length (default configuration). -/
def Z_MAX_PATH_LEN : Nat := 128

/-- The byte `'/'`. -/
def slashByte : Nat := 47

/-- The `zfile` struct: one packed file.  `path` holds the stored path bytes
(the prefix of the 128-byte `char path[Z_MAX_PATH_LEN]` array that is in use),
`plen` the `uint8_t` path length field, `flen` the `uint32_t` file length. -/
structure zfile where
  path : List Nat
  plen : Nat
  flen : Nat
deriving Repr, DecidableEq

/-- The `zfolder` struct: `files` models the populated prefix of the
`zfile files[Z_MAX_FILES]` array together with `nfiles` (the number of files
is `files.length`), `data` the heap buffer `uint8_t *data`, and `dlen` the
`uint32_t` data length. -/
structure zfolder where
  files : List zfile
  data : List Nat
  dlen : Nat
deriving Repr, DecidableEq

/-- `zf_init`: `memset(dir, 0, sizeof(zfolder))` — the empty archive. -/
def zf_init : zfolder := ⟨[], [], 0⟩

/-- Error kinds named by the specification. -/
inductive ZfError where
  | IOError
  | PathTooLong
  | TooManyFiles
  | FormatError
  | AlreadyExists
  | CompressionError
deriving Repr, DecidableEq

/-- `zf_add_file`: `strncpy` stores at most `Z_MAX_PATH_LEN` path bytes (a
longer path is silently truncated, there is no length check), `plen` is
`strnlen(stored, Z_MAX_PATH_LEN)`, and `_zf_read_file` appends the file's
bytes at offset `dlen` of the reallocated `data` buffer, adds the length into
the `uint32_t dlen` (wrapping), and returns the length as `uint32_t` for
`flen`.  There is no check of the file count against `Z_MAX_FILES`: the entry
is always appended (in C this writes `files[nfiles]` even when
`nfiles = Z_MAX_FILES`, past the end of the array). -/
def zf_add_file (dir : zfolder) (path : List Nat) (fdata : List Nat) : zfolder :=
  let stored := path.take Z_MAX_PATH_LEN
  { files := dir.files ++ [⟨stored, stored.length, fdata.length % 2 ^ 32⟩]
    data := dir.data.take dir.dlen ++ fdata
    dlen := (dir.dlen + fdata.length) % 2 ^ 32 }

/-- `_concat_path(dst, leaf, base, base.length)`: `dst = base ++ "/" ++ leaf`. -/
def concat_path (base leaf : List Nat) : List Nat := base ++ [slashByte] ++ leaf

/-- The per-entry body of `zf_add_dir` for a regular file `name` found in
directory `base` holding bytes `fdata`: the joined path length
`strlen(name) + strlen(base) + 1` is checked against `Z_MAX_PATH_LEN` and a
too-long join crashes (`"path is too long"`, modeled as `PathTooLong`);
otherwise `_concat_path` joins the path and `zf_add_file` is called. -/
def zf_add_dir_entry (dir : zfolder) (base name : List Nat) (fdata : List Nat) :
    Except ZfError zfolder :=
  if name.length + base.length + 1 > Z_MAX_PATH_LEN then .error .PathTooLong
  else .ok (zf_add_file dir (concat_path base name) fdata)

/-- Little-endian encoding of `v` on `n` bytes (the host byte order used by
the `memcpy`-based `copy_to_buf`, fixed as little-endian). -/
def writeLE : Nat → Nat → List Nat
  | 0, _ => []
  | n + 1, v => v % 256 :: writeLE n (v / 256)

/-- Little-endian read of an `n`-byte integer at position `pos` of `buf`
(the `memcpy`-based `read_from_buf`; bytes past the end read as 0). -/
def readLE (buf : List Nat) (pos : Nat) : Nat → Nat
  | 0 => 0
  | n + 1 => buf.getD pos 0 + 256 * readLE buf (pos + 1) n

/-- Raw `memcpy` of `n` bytes from position `pos` of `buf`
(bytes past the end read as 0). -/
def readBytes (buf : List Nat) (pos : Nat) : Nat → List Nat
  | 0 => []
  | n + 1 => buf.getD pos 0 :: readBytes buf (pos + 1) n

/-- The serialized bytes of one entry as `zf_compress` writes them:
1-byte `plen`, 4-byte `flen`, then `plen` bytes of the path array. -/
def entryBytes (f : zfile) : List Nat :=
  writeLE 1 f.plen ++ writeLE 4 f.flen ++ f.path.take f.plen

/-- The serialization loop of `zf_compress` (the part of `zf_compress` that
fills `to_compress` before handing it to ZSTD): write `nfiles` on 4 bytes,
then for each file in order its `entryBytes`, then `dlen` on 4 bytes, then
`dlen` bytes copied from `data`. -/
def zf_compress_ser (dir : zfolder) : List Nat :=
  (dir.files.foldl (fun b f => b ++ entryBytes f) (writeLE 4 dir.files.length))
    ++ writeLE 4 dir.dlen ++ dir.data.take dir.dlen

/-- The declarative wire format of the spec (§6): entry count as a 4-byte
unsigned integer, then per entry a 1-byte path length, a 4-byte file length
and the raw path bytes with no terminator, then the 4-byte content length,
then the content verbatim. -/
def wireLayout (dir : zfolder) : List Nat :=
  writeLE 4 dir.files.length
    ++ dir.files.flatMap (fun f => writeLE 1 f.plen ++ writeLE 4 f.flen ++ f.path)
    ++ writeLE 4 dir.dlen ++ dir.data

/-- The entry-reading loop of `zf_decompress`: starting at cursor `pos`, read
`n` entries, each as 1-byte `plen`, 4-byte `flen`, then `plen` path bytes;
return the entries and the final cursor.  No read is bounds-checked. -/
def parseEntries (buf : List Nat) (pos : Nat) : Nat → List zfile × Nat
  | 0 => ([], pos)
  | n + 1 =>
    let plen := readLE buf pos 1
    let flen := readLE buf (pos + 1) 4
    let path := readBytes buf (pos + 5) plen
    let r := parseEntries buf (pos + 5 + plen) n
    (⟨path, plen, flen⟩ :: r.1, r.2)

/-- The parse phase of `zf_decompress` (after ZSTD decompression): read the
4-byte `nfiles`, loop `nfiles` times reading entries, read the 4-byte `dlen`,
then copy `dlen` bytes as `data`.  Returns the parsed `zfolder` and the final
cursor position (total bytes the C code reads); no read is bounds-checked and
no count is validated, so the cursor can pass `buf.length`. -/
def zf_parse (buf : List Nat) : zfolder × Nat :=
  let nfiles := readLE buf 0 4
  let r := parseEntries buf 4 nfiles
  let dlen := readLE buf r.2 4
  (⟨r.1, readBytes buf (r.2 + 4) dlen, dlen⟩, r.2 + 4 + dlen)

/-- The offset loop of `zf_get_file`: `uint32_t offset` accumulates the
`flen` of the first `index` entries, wrapping at `2 ^ 32`; the C function
returns the pointer `data + offset`. -/
def zf_get_file (dir : zfolder) (index : Nat) : Nat :=
  (dir.files.take index).foldl (fun o f => (o + f.flen) % 2 ^ 32) 0

/-- The byte range that entry `i`'s returned pointer designates: `flen i`
bytes of `data` starting at `zf_get_file dir i`. -/
def zf_file_range (dir : zfolder) (i : Nat) : List Nat :=
  (dir.data.drop (zf_get_file dir i)).take ((dir.files.getD i ⟨[], 0, 0⟩).flen)

/-- `zf_decompress_todir`: if `stat(output)` succeeds (the output path
exists) and `overwrite` is false, crash (`AlreadyExists`); otherwise create
the output directory and, for each entry in order, join `output` with the
entry's path (cut at `plen` by the written null byte) and write the entry's
byte range there.  The result models the list of `(path, bytes)` writes. -/
def zf_decompress_todir (dir : zfolder) (output : List Nat)
    (outputExists overwrite : Bool) : Except ZfError (List (List Nat × List Nat)) :=
  if outputExists && !overwrite then .error .AlreadyExists
  else .ok ((List.range dir.files.length).map fun i =>
    (concat_path output ((dir.files.getD i ⟨[], 0, 0⟩).path.take
        (dir.files.getD i ⟨[], 0, 0⟩).plen),
     zf_file_range dir i))

/-- The scan loop of `_split_path`: walks the bytes of the path with the
`uint8_t len` counter (wrapping at 256) and yields the counter's value at the
first `'/'`, or nothing when the terminating null is reached first. -/
def splitPathLen : List Nat → Nat → Option Nat
  | [], _ => none
  | b :: rest, len =>
    if b = slashByte then some len else splitPathLen rest ((len + 1) % 256)

/-- `_split_path`: when a `'/'` is found at wrapped counter value `len`,
return `len` and advance `*path` by `len + 1` bytes; otherwise return 0 and
leave `*path` unchanged. -/
def split_path (p : List Nat) : Nat × List Nat :=
  match splitPathLen p 0 with
  | none => (0, p)
  | some len => (len, p.drop (len + 1))

/-- The loop of `_create_necessary_dirs`: `tmp` is the moving `tmp_path`
pointer and `off` its byte offset from `path`.  While `_split_path` returns a
nonzero length, the ancestor prefix `path[0 .. (tmp_path - 1) - path)` is
produced (stat'ed and created if absent); a prefix longer than
`Z_MAX_PATH_LEN` crashes (modeled as `none`).  The result is the list of
ancestor prefixes the function attempts to create. -/
def createDirsGo (path : List Nat) (tmp : List Nat) (off : Nat) :
    Option (List (List Nat)) :=
  if h : (split_path tmp).1 = 0 then some []
  else
    let off2 := off + (split_path tmp).1 + 1
    let sz := off2 - 1
    if sz > Z_MAX_PATH_LEN then none
    else (createDirsGo path (split_path tmp).2 off2).map (fun l => path.take sz :: l)
termination_by tmp.length
decreasing_by
  rcases hs : splitPathLen tmp 0 with _ | len
  · exact absurd (by unfold split_path; rw [hs]) h
  · have h2 : (split_path tmp).2 = tmp.drop (len + 1) := by unfold split_path; rw [hs]
    have htmp : tmp ≠ [] := fun he => by rw [he] at hs; simp [splitPathLen] at hs
    rw [h2]
    have hlen : (tmp.drop (len + 1)).length = tmp.length - (len + 1) :=
      List.length_drop _ _
    have hpos : 0 < tmp.length := List.length_pos.mpr htmp
    omega

/-- `_create_necessary_dirs`: drive `_split_path` over `path`, creating every
ancestor-path prefix until a zero-length segment is returned. -/
def create_necessary_dirs (path : List Nat) : Option (List (List Nat)) :=
  createDirsGo path path 0

/-- The invariants the C types impose on a populated `zfile`: the stored path
length field matches the stored path, is at most `Z_MAX_PATH_LEN` (the
`char path[Z_MAX_PATH_LEN]` array), and `flen` fits in `uint32_t`. -/
def zfile.typeWf (f : zfile) : Prop :=
  f.plen = f.path.length ∧ f.plen ≤ Z_MAX_PATH_LEN ∧ f.flen < 2 ^ 32

instance (f : zfile) : Decidable f.typeWf := by
  unfold zfile.typeWf; infer_instance

/-- The archive from the spec's example scenario (§8):
`a.txt` ↦ `hi`, `sub/b.txt` ↦ `bye`, content `hibye`. -/
def exampleFolder : zfolder :=
  { files := [⟨[97, 46, 116, 120, 116], 5, 2⟩,
              ⟨[115, 117, 98, 47, 98, 46, 116, 120, 116], 9, 3⟩]
    data := [104, 105, 98, 121, 101]
    dlen := 5 }

/-- An archive whose `files` array is completely full. -/
def fullFolder : zfolder := ⟨List.replicate Z_MAX_FILES ⟨[], 0, 0⟩, [], 0⟩

/-- A 200-byte path, longer than `Z_MAX_PATH_LEN`. -/
def longPath : List Nat := List.replicate 200 97

/-- The bytes of a file of `2 ^ 31 - 2` bytes (a length `ftell` can report on
every platform where `long` is at least 32 bits). -/
def bigData : List Nat := List.replicate (2 ^ 31 - 2) 0

/-- A sequence of `zf_add_file` calls: each operation is a pair of the path
argument and the bytes of the file read from disk. -/
def addAll (ops : List (List Nat × List Nat)) (d : zfolder) : zfolder :=
  ops.foldl (fun acc pf => zf_add_file acc pf.1 pf.2) d

/-! ## Byte-level codec lemmas -/

theorem writeLE_length : ∀ (n v : Nat), (writeLE n v).length = n
  | 0, _ => rfl
  | n + 1, v => by simp [writeLE, writeLE_length n]

theorem getD_drop (l : List Nat) (i j : Nat) : (l.drop i).getD j 0 = l.getD (i + j) 0 := by
  simp [List.getD, List.getElem?_drop]

theorem drop_add (l : List Nat) (m n : Nat) : l.drop (m + n) = (l.drop m).drop n := by
  rw [List.drop_drop, Nat.add_comm]

theorem readLE_drop (l : List Nat) : ∀ (n i j : Nat),
    readLE (l.drop i) j n = readLE l (i + j) n
  | 0, _, _ => rfl
  | n + 1, i, j => by
    simp only [readLE, getD_drop]
    rw [readLE_drop l n i (j + 1), show i + (j + 1) = i + j + 1 by omega]

theorem readBytes_drop (l : List Nat) : ∀ (n i j : Nat),
    readBytes (l.drop i) j n = readBytes l (i + j) n
  | 0, _, _ => rfl
  | n + 1, i, j => by
    simp only [readBytes, getD_drop]
    rw [readBytes_drop l n i (j + 1), show i + (j + 1) = i + j + 1 by omega]

theorem readLE_writeLE : ∀ (n v : Nat) (rest : List Nat),
    readLE (writeLE n v ++ rest) 0 n = v % 256 ^ n
  | 0, v, rest => by simp [readLE, Nat.mod_one]
  | n + 1, v, rest => by
    have ih := readLE_writeLE n (v / 256) rest
    have hshift : readLE (writeLE n (v / 256) ++ rest) 0 n
        = readLE (v % 256 :: (writeLE n (v / 256) ++ rest)) 1 n := by
      have h := readLE_drop (v % 256 :: (writeLE n (v / 256) ++ rest)) n 1 0
      simpa using h
    simp only [writeLE, List.cons_append, readLE, List.getD_cons_zero]
    rw [← hshift, ih, pow_succ', Nat.mod_mul]

theorem readBytes_exact : ∀ (l rest : List Nat), readBytes (l ++ rest) 0 l.length = l
  | [], rest => rfl
  | a :: l, rest => by
    have hshift : readBytes (l ++ rest) 0 l.length
        = readBytes (a :: (l ++ rest)) 1 l.length := by
      have h := readBytes_drop (a :: (l ++ rest)) l.length 1 0
      simpa using h
    simp only [List.cons_append, List.length_cons, readBytes, List.getD_cons_zero]
    rw [← hshift, readBytes_exact l rest]

theorem entryBytes_length (f : zfile) (h : f.plen ≤ f.path.length) :
    (entryBytes f).length = 5 + f.plen := by
  simp only [entryBytes, List.length_append, writeLE_length, List.length_take]
  omega

/-- Correctness of the entry-reading loop of `zf_decompress` on a buffer
whose suffix at `pos` begins with the serialized entries. -/
theorem parseEntries_spec : ∀ (fs : List zfile) (buf : List Nat) (pos : Nat)
    (rest : List Nat), (∀ f ∈ fs, f.typeWf) →
    buf.drop pos = fs.flatMap entryBytes ++ rest →
    parseEntries buf pos fs.length = (fs, pos + (fs.flatMap entryBytes).length)
  | [], buf, pos, rest, _, _ => by simp [parseEntries]
  | f :: fs, buf, pos, rest, hwf, hdrop => by
    obtain ⟨hplen, hmax, hflen⟩ := hwf f (List.mem_cons_self f fs)
    have hmax' : f.plen ≤ 128 := hmax
    have hwf' : ∀ g ∈ fs, g.typeWf := fun g hg => hwf g (List.mem_cons_of_mem f hg)
    have htake : f.path.take f.plen = f.path := by rw [hplen, List.take_length]
    rw [List.flatMap_cons] at hdrop
    have hdrop0 : buf.drop pos = writeLE 1 f.plen
        ++ (writeLE 4 f.flen ++ (f.path ++ (fs.flatMap entryBytes ++ rest))) := by
      rw [hdrop]
      simp [entryBytes, htake, List.append_assoc]
    have h1 : readLE buf pos 1 = f.plen := by
      have hs := readLE_drop buf 1 pos 0
      rw [Nat.add_zero] at hs
      rw [← hs, hdrop0, readLE_writeLE]
      exact Nat.mod_eq_of_lt (by omega)
    have h2 : readLE buf (pos + 1) 4 = f.flen := by
      have hs := readLE_drop buf 4 (pos + 1) 0
      rw [Nat.add_zero] at hs
      rw [← hs, drop_add, hdrop0, List.drop_left' (writeLE_length 1 f.plen),
        readLE_writeLE]
      have h32 : (256 : Nat) ^ 4 = 2 ^ 32 := by norm_num
      rw [h32]
      exact Nat.mod_eq_of_lt hflen
    have h3 : readBytes buf (pos + 5) f.plen = f.path := by
      have hs := readBytes_drop buf f.plen (pos + 5) 0
      rw [Nat.add_zero] at hs
      have hdrop5 : buf.drop (pos + 5)
          = f.path ++ (fs.flatMap entryBytes ++ rest) := by
        rw [show pos + 5 = pos + 1 + 4 by omega, drop_add, drop_add, hdrop0,
          List.drop_left' (writeLE_length 1 f.plen),
          List.drop_left' (writeLE_length 4 f.flen)]
      rw [← hs, hdrop5]
      have := readBytes_exact f.path (fs.flatMap entryBytes ++ rest)
      rw [← hplen] at this
      exact this
    have hlen : (entryBytes f).length = 5 + f.plen :=
      entryBytes_length f (Nat.le_of_eq hplen)
    have hrec : buf.drop (pos + 5 + f.plen) = fs.flatMap entryBytes ++ rest := by
      rw [show pos + 5 + f.plen = pos + (5 + f.plen) by omega, drop_add, hdrop,
        ← hlen, List.append_assoc]
      exact List.drop_left _ _
    have ih := parseEntries_spec fs buf (pos + 5 + f.plen) rest hwf' hrec
    show parseEntries buf pos (fs.length + 1) = _
    simp only [parseEntries, h1, h2, h3, ih, Prod.mk.injEq]
    refine ⟨trivial, ?_⟩
    simp only [List.flatMap_cons, List.length_append, hlen]
    omega

/-- The serialization loop accumulates exactly the concatenation of the
per-entry byte blocks. -/
theorem foldl_entryBytes : ∀ (fs : List zfile) (b : List Nat),
    fs.foldl (fun acc f => acc ++ entryBytes f) b = b ++ fs.flatMap entryBytes
  | [], b => by simp
  | f :: fs, b => by
    simp only [List.foldl_cons, List.flatMap_cons,
      foldl_entryBytes fs (b ++ entryBytes f), List.append_assoc]

/-- Decomposition of `zf_compress_ser` into the four wire-format sections. -/
theorem ser_decomp (d : zfolder) (hdata : d.data.length = d.dlen) :
    zf_compress_ser d = writeLE 4 d.files.length
      ++ (d.files.flatMap entryBytes ++ (writeLE 4 d.dlen ++ d.data)) := by
  unfold zf_compress_ser
  rw [foldl_entryBytes, ← hdata, List.take_length]
  simp [List.append_assoc]

/-- The round-trip core: on the buffer produced by the serialization loop of
`zf_compress`, the parse phase of `zf_decompress` reconstructs the archive
exactly, and its final cursor equals the buffer length. -/
theorem zf_parse_ser (d : zfolder) (hn : d.files.length < 2 ^ 32)
    (hwf : ∀ f ∈ d.files, f.typeWf) (hdlen : d.dlen < 2 ^ 32)
    (hdata : d.data.length = d.dlen) :
    zf_parse (zf_compress_ser d) = (d, (zf_compress_ser d).length) := by
  have hbuf := ser_decomp d hdata
  have h256 : (256 : Nat) ^ 4 = 2 ^ 32 := by norm_num
  have h1 : readLE (zf_compress_ser d) 0 4 = d.files.length := by
    rw [hbuf, readLE_writeLE, h256]
    exact Nat.mod_eq_of_lt hn
  have hdrop4 : (zf_compress_ser d).drop 4
      = d.files.flatMap entryBytes ++ (writeLE 4 d.dlen ++ d.data) := by
    rw [hbuf]
    exact List.drop_left' (writeLE_length 4 d.files.length)
  have h2 := parseEntries_spec d.files (zf_compress_ser d) 4
    (writeLE 4 d.dlen ++ d.data) hwf hdrop4
  have hdropF : (zf_compress_ser d).drop (4 + (d.files.flatMap entryBytes).length)
      = writeLE 4 d.dlen ++ d.data := by
    rw [drop_add, hdrop4]
    exact List.drop_left _ _
  have h3 : readLE (zf_compress_ser d) (4 + (d.files.flatMap entryBytes).length) 4
      = d.dlen := by
    have hs := readLE_drop (zf_compress_ser d) 4
      (4 + (d.files.flatMap entryBytes).length) 0
    rw [Nat.add_zero] at hs
    rw [← hs, hdropF, readLE_writeLE, h256]
    exact Nat.mod_eq_of_lt hdlen
  have hdropD : (zf_compress_ser d).drop
      (4 + (d.files.flatMap entryBytes).length + 4) = d.data := by
    rw [drop_add, hdropF]
    exact List.drop_left' (writeLE_length 4 d.dlen)
  have h4 : readBytes (zf_compress_ser d)
      (4 + (d.files.flatMap entryBytes).length + 4) d.dlen = d.data := by
    have hs := readBytes_drop (zf_compress_ser d) d.dlen
      (4 + (d.files.flatMap entryBytes).length + 4) 0
    rw [Nat.add_zero] at hs
    rw [← hs, hdropD, ← hdata, ← List.append_nil d.data]
    have := readBytes_exact d.data []
    simpa using this
  have hlen : (zf_compress_ser d).length
      = 4 + (d.files.flatMap entryBytes).length + 4 + d.dlen := by
    rw [hbuf]
    simp only [List.length_append, writeLE_length]
    omega
  show zf_parse (zf_compress_ser d) = _
  simp only [zf_parse, h1, h2, h3, h4, hlen, Prod.mk.injEq]

/-- Under the struct invariant `plen = path.length`, the serialized entry
block is the 1-byte length, the 4-byte length and the whole path. -/
theorem flatMap_entryBytes_eq : ∀ (fs : List zfile),
    (∀ f ∈ fs, f.plen = f.path.length) →
    fs.flatMap entryBytes
      = fs.flatMap (fun f => writeLE 1 f.plen ++ writeLE 4 f.flen ++ f.path)
  | [], _ => rfl
  | f :: fs, h => by
    have hf := h f (List.mem_cons_self f fs)
    simp only [List.flatMap_cons,
      flatMap_entryBytes_eq fs (fun g hg => h g (List.mem_cons_of_mem f hg)),
      entryBytes, hf, List.take_length]

/-- The wrapping `uint32_t` accumulation of `zf_get_file` agrees with the
mathematical sum as long as the final sum fits in 32 bits. -/
theorem foldl_mod_sum : ∀ (fs : List zfile) (acc : Nat),
    acc + (fs.map zfile.flen).sum < 2 ^ 32 →
    fs.foldl (fun o f => (o + f.flen) % 2 ^ 32) acc = acc + (fs.map zfile.flen).sum
  | [], acc, _ => by simp
  | f :: fs, acc, h => by
    simp only [List.foldl_cons, List.map_cons, List.sum_cons] at h ⊢
    have hlt : acc + f.flen < 2 ^ 32 := by omega
    rw [Nat.mod_eq_of_lt hlt, foldl_mod_sum fs (acc + f.flen) (by omega)]
    omega

theorem take_map_sum_le (fs : List zfile) (i : Nat) :
    ((fs.take i).map zfile.flen).sum ≤ (fs.map zfile.flen).sum := by
  conv_rhs => rw [← List.take_append_drop i fs]
  rw [List.map_append, List.sum_append]
  omega

theorem take_succ_sum (fs : List zfile) (i : Nat) (h : i < fs.length) :
    ((fs.take (i + 1)).map zfile.flen).sum
      = ((fs.take i).map zfile.flen).sum + (fs.get ⟨i, h⟩).flen := by
  have hm : i < (fs.map zfile.flen).length := by simpa using h
  rw [List.map_take, List.map_take, List.take_succ, List.getElem?_eq_getElem hm]
  simp

/-- A path with no `'/'` makes the `_split_path` scan run to the null. -/
theorem splitPathLen_none : ∀ (p : List Nat) (len : Nat),
    slashByte ∉ p → splitPathLen p len = none
  | [], _, _ => rfl
  | b :: rest, len, h => by
    have hb : b ≠ slashByte := fun he => h (he ▸ List.mem_cons_self b rest)
    simp only [splitPathLen, if_neg hb]
    exact splitPathLen_none rest _ (fun hm => h (List.mem_cons_of_mem b hm))

/-- Invariant: after any sequence of `zf_add_file` calls, `dlen` is the sum of
the stored `flen` fields reduced modulo `2 ^ 32`. -/
theorem addAll_dlen_inv : ∀ (ops : List (List Nat × List Nat)) (d : zfolder),
    d.dlen = (d.files.map zfile.flen).sum % 2 ^ 32 →
    (addAll ops d).dlen = ((addAll ops d).files.map zfile.flen).sum % 2 ^ 32
  | [], d, h => h
  | op :: ops, d, h => by
    show (addAll ops (zf_add_file d op.1 op.2)).dlen = _
    apply addAll_dlen_inv ops
    simp only [zf_add_file, List.map_append, List.sum_append, List.map_cons,
      List.sum_cons, List.map_nil, List.sum_nil, Nat.add_zero]
    rw [h, Nat.mod_add_mod, Nat.add_mod_mod]

/-! ## Claim theorems -/

/-- C1: Round-trip.  For every archive whose entry count is at most
`Z_MAX_FILES`, whose per-entry path lengths are at most `Z_MAX_PATH_LEN`
(together with the struct-type invariants `plen = path.length` and
`flen < 2 ^ 32`), and whose content length equals the sum of entry lengths
(with `dlen < 2 ^ 32` and `data` of length `dlen`, as the `uint32_t` field
and the allocation imply), parsing the serialized byte buffer — the
deserialize logic of `zf_decompress` applied to the output of
`zf_compress`'s serialization, with ZSTD abstracted away — yields an archive
with the same entry count, the same `(path, plen, flen)` entries in the same
order, and byte-identical content. -/
theorem C1_roundtrip (d : zfolder)
    (hcount : d.files.length ≤ Z_MAX_FILES)
    (hwf : ∀ f ∈ d.files, f.typeWf)
    (hsum : d.dlen = (d.files.map zfile.flen).sum)
    (hdlen : d.dlen < 2 ^ 32)
    (hdata : d.data.length = d.dlen) :
    (zf_parse (zf_compress_ser d)).1 = d := by
  have hmax : Z_MAX_FILES = 2048 := rfl
  have hn : d.files.length < 2 ^ 32 := by
    rw [hmax] at hcount
    have : (2048 : Nat) < 2 ^ 32 := by norm_num
    omega
  rw [zf_parse_ser d hn hwf hdlen hdata]

theorem C1_roundtrip_witness :
    (exampleFolder.files.length ≤ Z_MAX_FILES
      ∧ (∀ f ∈ exampleFolder.files, f.typeWf)
      ∧ exampleFolder.dlen = (exampleFolder.files.map zfile.flen).sum
      ∧ exampleFolder.dlen < 2 ^ 32
      ∧ exampleFolder.data.length = exampleFolder.dlen)
    ∧ (zf_parse (zf_compress_ser exampleFolder)).1 = exampleFolder :=
  ⟨⟨by decide, by decide, by decide, by decide, by decide⟩,
    C1_roundtrip exampleFolder (by decide) (by decide) (by decide)
      (by decide) (by decide)⟩

/-- C4: Serialization layout.  For every archive satisfying the struct
invariants (`plen = path.length` per entry, `data` of length `dlen`),
`zf_compress`'s serialization loop produces exactly the wire format of the
spec: 4-byte entry count, then per entry in order a 1-byte path length, a
4-byte file length and the raw path bytes with no terminator, then the
4-byte content length, then the content verbatim. -/
theorem C4_layout (d : zfolder)
    (hplen : ∀ f ∈ d.files, f.plen = f.path.length)
    (hdata : d.data.length = d.dlen) :
    zf_compress_ser d = wireLayout d := by
  rw [ser_decomp d hdata, flatMap_entryBytes_eq d.files hplen]
  unfold wireLayout
  simp [List.append_assoc]

theorem C4_layout_witness :
    ((∀ f ∈ exampleFolder.files, f.plen = f.path.length)
      ∧ exampleFolder.data.length = exampleFolder.dlen)
    ∧ zf_compress_ser exampleFolder = wireLayout exampleFolder :=
  ⟨⟨by decide, by decide⟩, C4_layout exampleFolder (by decide) (by decide)⟩

/-- C5: Offset derivation.  For every archive whose content length equals
the sum of its entry lengths (with the `uint32_t` bounds and `data` of
length `dlen`) and every `i < nfiles`, `zf_get_file` returns the offset
equal to the sum of the lengths of entries `0..i-1`, the designated byte
range has length exactly entry `i`'s declared `flen`, and for the last
entry the range ends exactly at `dlen`. -/
theorem C5_offset_derivation (d : zfolder) (i : Nat) (hi : i < d.files.length)
    (hsum : d.dlen = (d.files.map zfile.flen).sum)
    (hdlen : d.dlen < 2 ^ 32)
    (hdata : d.data.length = d.dlen) :
    zf_get_file d i = ((d.files.take i).map zfile.flen).sum
    ∧ (zf_file_range d i).length = (d.files.get ⟨i, hi⟩).flen
    ∧ (i + 1 = d.files.length →
        zf_get_file d i + (d.files.get ⟨i, hi⟩).flen = d.dlen) := by
  have hle : ((d.files.take i).map zfile.flen).sum ≤ (d.files.map zfile.flen).sum :=
    take_map_sum_le d.files i
  have hoff : zf_get_file d i = ((d.files.take i).map zfile.flen).sum := by
    unfold zf_get_file
    rw [foldl_mod_sum (d.files.take i) 0 (by omega)]
    omega
  have hsucc := take_succ_sum d.files i hi
  have hle1 : ((d.files.take (i + 1)).map zfile.flen).sum
      ≤ (d.files.map zfile.flen).sum := take_map_sum_le d.files (i + 1)
  refine ⟨hoff, ?_, ?_⟩
  · have hgetD : d.files.getD i ⟨[], 0, 0⟩ = d.files.get ⟨i, hi⟩ := by
      simp [List.getD, List.getElem?_eq_getElem hi]
    unfold zf_file_range
    rw [hgetD, hoff, List.length_take, List.length_drop, hdata]
    omega
  · intro hlast
    have htake : d.files.take (i + 1) = d.files := by
      rw [hlast, List.take_length]
    rw [hoff, ← hsucc, htake, hsum]

theorem C5_offset_derivation_witness :
    (1 < exampleFolder.files.length
      ∧ exampleFolder.dlen = (exampleFolder.files.map zfile.flen).sum
      ∧ exampleFolder.dlen < 2 ^ 32
      ∧ exampleFolder.data.length = exampleFolder.dlen)
    ∧ (zf_get_file exampleFolder 1
        = ((exampleFolder.files.take 1).map zfile.flen).sum
      ∧ (zf_file_range exampleFolder 1).length
        = (exampleFolder.files.get ⟨1, by decide⟩).flen
      ∧ (1 + 1 = exampleFolder.files.length →
          zf_get_file exampleFolder 1
            + (exampleFolder.files.get ⟨1, by decide⟩).flen
            = exampleFolder.dlen)) :=
  ⟨⟨by decide, by decide, by decide, by decide⟩,
    C5_offset_derivation exampleFolder 1 (by decide) (by decide)
      (by decide) (by decide)⟩

/-- C2 (code bug): the parse phase of `zf_decompress` is not bounds-checked.
On the 4-byte buffer `[2, 0, 0, 0]` — a decompressed stream truncated right
after an entry count of 2 — the parser returns a `zfolder` with 2 entries
instead of failing, and its final cursor is 18: it read 14 bytes past the
end of the buffer (undefined behavior in the C code). -/
theorem C2_parse_unchecked_oob :
    ([2, 0, 0, 0] : List Nat).length = 4
    ∧ (zf_parse [2, 0, 0, 0]).2 = 18
    ∧ (zf_parse [2, 0, 0, 0]).1.files.length = 2 := by decide

/-- A read at or past the end of the buffer yields 0 (the model of the C
out-of-bounds `memcpy`). -/
theorem readLE_past_end (buf : List Nat) : ∀ (n pos : Nat),
    buf.length ≤ pos → readLE buf pos n = 0
  | 0, pos, _ => rfl
  | n + 1, pos, h => by
    rw [readLE, List.getD_eq_default _ _ h,
      readLE_past_end buf n (pos + 1) (by omega)]

/-- Once the cursor is past the end of the buffer, every remaining iteration
of the entry loop reads the all-zero entry and advances by 5 bytes. -/
theorem parseEntries_past_end (buf : List Nat) : ∀ (n pos : Nat),
    buf.length ≤ pos →
    parseEntries buf pos n = (List.replicate n ⟨[], 0, 0⟩, pos + 5 * n)
  | 0, pos, _ => by simp [parseEntries]
  | n + 1, pos, h => by
    have h1 : readLE buf pos 1 = 0 := readLE_past_end buf 1 pos h
    have h4 : readLE buf (pos + 1) 4 = 0 := readLE_past_end buf 4 (pos + 1) (by omega)
    have ih := parseEntries_past_end buf n (pos + 5 + 0) (by omega)
    simp only [parseEntries, h1, h4, ih, readBytes, List.replicate, Prod.mk.injEq]
    exact ⟨trivial, by omega⟩

/-- C3 (code bug): the 4-byte entry count read by `zf_decompress` is not
validated against `Z_MAX_FILES`.  On the buffer `[1, 8, 0, 0]` (entry count
2049 > 2048) the parser loops 2049 times and produces 2049 entries instead
of rejecting the count (in the C code the loop writes `files[i]` for
`i` up to 2048, past the end of the `files` array). -/
theorem C3_count_not_validated :
    readLE [1, 8, 0, 0] 0 4 = 2049
    ∧ Z_MAX_FILES < 2049
    ∧ (zf_parse [1, 8, 0, 0]).1.files.length = 2049 := by
  have h1 : readLE [1, 8, 0, 0] 0 4 = 2049 := by decide
  have h2 := parseEntries_past_end [1, 8, 0, 0] 2049 4 (by decide)
  refine ⟨h1, by decide, ?_⟩
  simp only [zf_parse, h1, h2, List.length_replicate]

/-- C6 (code bug): `zf_add_file` performs no check of `nfiles` against
`Z_MAX_FILES`: applied to an archive already holding `Z_MAX_FILES` files it
appends a `Z_MAX_FILES + 1`-st entry instead of failing with `TooManyFiles`
(in the C code this writes `files[Z_MAX_FILES]`, past the end of the
fixed-size array). -/
theorem C6_add_file_no_count_check :
    fullFolder.files.length = Z_MAX_FILES
    ∧ (zf_add_file fullFolder [97] [104, 105]).files.length
        = Z_MAX_FILES + 1 := by
  constructor
  · simp [fullFolder, List.length_replicate]
  · simp [zf_add_file, fullFolder, List.length_replicate]

set_option maxRecDepth 10000 in
/-- C7 (code bug): `zf_add_file` called directly with a 200-byte path (longer
than `Z_MAX_PATH_LEN = 128`) does not fail with `PathTooLong`: it stores the
path silently truncated to 128 bytes with `plen = 128` and appends the entry
normally.  (Only the join inside `zf_add_dir` checks the length, cf.
`zf_add_dir_entry`.) -/
theorem C7_add_file_truncates_silently :
    longPath.length = 200
    ∧ Z_MAX_PATH_LEN < 200
    ∧ (zf_add_file zf_init longPath []).files
        = [⟨List.replicate 128 97, 128, 0⟩] := by decide

/-- C8: Extraction safety.  For every archive and output path, when the
output path exists and `overwrite` is false, `zf_decompress_todir` fails
with `AlreadyExists` before materializing anything: the result carries no
writes. -/
theorem C8_extract_already_exists (d : zfolder) (output : List Nat) :
    zf_decompress_todir d output true false
      = Except.error ZfError.AlreadyExists := rfl

theorem zf_add_file_dlen (d : zfolder) (p f : List Nat) :
    (zf_add_file d p f).dlen = (d.dlen + f.length) % 2 ^ 32 := rfl

theorem zf_add_file_map_flen (d : zfolder) (p f : List Nat) :
    (zf_add_file d p f).files.map zfile.flen
      = d.files.map zfile.flen ++ [f.length % 2 ^ 32] := by
  simp [zf_add_file]

theorem bigData_length : bigData.length = 2147483646 := by
  unfold bigData
  rw [List.length_replicate]
  norm_num

/-- C9 (counterexample): after three successful `zf_add_file` calls on files
of `2 ^ 31 - 2` bytes each, the `uint32_t dlen` accumulator has wrapped:
`dlen = 2147483642` while the sum of the stored `flen` fields is
`6442450938`, so `dlen` does not equal the sum of the entry lengths. -/
theorem C9_counterexample :
    ¬ ((addAll [([97], bigData), ([98], bigData), ([99], bigData)] zf_init).dlen
      = ((addAll [([97], bigData), ([98], bigData), ([99], bigData)]
          zf_init).files.map zfile.flen).sum) := by
  have hstep : addAll [([97], bigData), ([98], bigData), ([99], bigData)] zf_init
      = zf_add_file (zf_add_file (zf_add_file zf_init [97] bigData) [98] bigData)
          [99] bigData := by
    unfold addAll
    rw [List.foldl_cons, List.foldl_cons, List.foldl_cons, List.foldl_nil]
  have h0 : zf_init.dlen = 0 := rfl
  have e1 : (zf_add_file zf_init [97] bigData).dlen = 2147483646 := by
    rw [zf_add_file_dlen, h0, bigData_length]
    norm_num
  have e2 : (zf_add_file (zf_add_file zf_init [97] bigData) [98] bigData).dlen
      = 4294967292 := by
    rw [zf_add_file_dlen, e1, bigData_length]
    norm_num
  have e3 : (zf_add_file (zf_add_file (zf_add_file zf_init [97] bigData)
      [98] bigData) [99] bigData).dlen = 2147483642 := by
    rw [zf_add_file_dlen, e2, bigData_length]
    norm_num
  have hf0 : zf_init.files.map zfile.flen = [] := rfl
  have hL2 : bigData.length % 2 ^ 32 = 2147483646 := by
    rw [bigData_length]
    norm_num
  have s3 : ((zf_add_file (zf_add_file (zf_add_file zf_init [97] bigData)
      [98] bigData) [99] bigData).files.map zfile.flen).sum = 6442450938 := by
    rw [zf_add_file_map_flen, zf_add_file_map_flen, zf_add_file_map_flen,
      hf0, hL2]
    rfl
  rw [hstep, e3, s3]
  omega

/-- C9 (amended): starting from `zf_init` and applying any sequence of
`zf_add_file` operations, the archive's `dlen` always equals the sum of the
`flen` fields of its entries reduced modulo `2 ^ 32` (the `uint32_t` width);
the plain sum only when it fits in 32 bits. -/
theorem C9_dlen_sum_mod (ops : List (List Nat × List Nat)) :
    (addAll ops zf_init).dlen
      = ((addAll ops zf_init).files.map zfile.flen).sum % 2 ^ 32 :=
  addAll_dlen_inv ops zf_init (by simp [zf_init])

/-- C10: `_split_path` returns 0 when the path contains no `'/'` (scan hits
the null) and also when the first segment is empty (leading `'/'`, as after
a doubled `'/'`); since 0 is the exhaustion signal of the
`_create_necessary_dirs` loop, an absolute path produces no ancestor
prefixes, so no directory is created at all. -/
theorem C10_split_path_exhaustion (p q : List Nat) (h : slashByte ∉ p) :
    (split_path p).1 = 0
    ∧ (split_path (slashByte :: q)).1 = 0
    ∧ create_necessary_dirs (slashByte :: q) = some [] := by
  have hnone := splitPathLen_none p 0 h
  have hp : (split_path p).1 = 0 := by
    unfold split_path
    rw [hnone]
  have hsome : splitPathLen (slashByte :: q) 0 = some 0 := by
    simp [splitPathLen]
  have habs : (split_path (slashByte :: q)).1 = 0 := by
    unfold split_path
    rw [hsome]
  refine ⟨hp, habs, ?_⟩
  unfold create_necessary_dirs
  unfold createDirsGo
  rw [dif_pos habs]

theorem C10_split_path_exhaustion_witness :
    (slashByte ∉ ([97, 98, 99] : List Nat))
    ∧ ((split_path [97, 98, 99]).1 = 0
      ∧ (split_path (slashByte :: [97, 47, 98])).1 = 0
      ∧ create_necessary_dirs (slashByte :: [97, 47, 98]) = some []) :=
  ⟨by decide, C10_split_path_exhaustion [97, 98, 99] [97, 47, 98] (by decide)⟩
